import Mathlib

/-!
Verification of the midi-arpeggiator engine: a shallow embedding of the
note/step/arpeggio data model, the pattern expansion, the synced and
full-length players, the settings router and the MutatingHold mode, with
theorems checking the specification's claims against the code.

Machine integers (u8/usize pitches, velocities, tick counts) are embedded
as `Nat`; the fallible operations (array indexing, unsigned subtraction,
modulo by a possibly-zero length, unbounded loops embedded with fuel)
return `Option` so that every panic or divergence of the source shows up
as `none`.
-/

namespace MidiArp

/-- NoteDetails (src/arpeggio.rs): channel, pitch and velocity of one
sounding note. Channels are 1..16, pitches and velocities 0..127. -/
structure NoteDetails where
  c : Nat
  n : Nat
  v : Nat
deriving Repr, DecidableEq

/-- Step used by the synced arpeggios and by `Pattern::of`: an ordered bag
of notes sounding simultaneously (per spec section 9 the synced `Step` is
timing-free; its timing lives in the containing arpeggio). -/
structure Step where
  notes : List NoteDetails
deriving Repr, DecidableEq

/-- Modelled from the spec: the `Step::notes` constructor used by
`Pattern::of` (absent from the snapshot of src/arpeggio.rs) wraps an
ordered note list into a step. -/
def Step.ofNotes (l : List NoteDetails) : Step := ⟨l⟩

/-- Modelled from the spec: the `Step::note` constructor used by
MutatingHold builds a one-note step. -/
def Step.note (d : NoteDetails) : Step := ⟨[d]⟩

/-- Modelled from the spec: `Step::empty` builds a rest. -/
def Step.empty : Step := ⟨[]⟩

/-- MIDI messages, with the constructors the routed/settled code matches
on; every other wmidi variant falls into `other` exactly as the source's
catch-all match arms treat them. -/
inductive Msg where
  | noteOn (c n v : Nat)
  | noteOff (c n v : Nat)
  | controlChange (c fn v : Nat)
  | programChange (c pc : Nat)
  | timingClock
  | other (k : Nat)
deriving Repr, DecidableEq

/-- TICKS_PER_BEAT (src/midi.rs line 36): 24 PPQN. -/
def TICKS_PER_BEAT : Nat := 24

/-- Step::send_on (src/arpeggio.rs): one NoteOn per note, in order. -/
def Step.sendOn (s : Step) : List Msg :=
  s.notes.map (fun d => Msg.noteOn d.c d.n d.v)

/-- Step::send_off (src/arpeggio.rs): one NoteOff per note, in order (the
source sends the note's recorded velocity with the off). -/
def Step.sendOff (s : Step) : List Msg :=
  s.notes.map (fun d => Msg.noteOff d.c d.n d.v)

/-! ## Pattern expansion (src/arpeggiator.rs, `Pattern::of`) -/

/-- Pattern (src/arpeggiator.rs): note ordering over a pitch set. -/
inductive Pattern where
  | up
  | down
deriving Repr, DecidableEq

/-- Comparator used by the sort in `Pattern::of`: `Up` sorts ascending by
pitch, `Down` descending; `le a b` says a may stay before b. -/
def Pattern.le : Pattern → NoteDetails → NoteDetails → Bool
  | .up, a, b => a.n ≤ b.n
  | .down, a, b => b.n ≤ a.n

/-- Stable insertion into a sorted list: the new element goes after every
element allowed to stay before it, which models the stability of Rust's
`sort_by`. -/
def insertBy (le : NoteDetails → NoteDetails → Bool) (x : NoteDetails) :
    List NoteDetails → List NoteDetails
  | [] => [x]
  | y :: ys => if le y x then y :: insertBy le x ys else x :: y :: ys

/-- Stable sort modelling `notes.sort_by(...)` in `Pattern::of`. -/
def sortNotes (p : Pattern) (l : List NoteDetails) : List NoteDetails :=
  l.foldl (fun acc x => insertBy p.le x acc) []

/-- Pattern::expand (src/arpeggiator.rs lines 57-68): append a reversed
repetition of the interior notes; with 1 note repeat it, with 2 repeat
both in reverse, otherwise repeat all but the first and last. The source
panics on 0 notes; `Pattern.of` never calls this on an empty list. -/
def Pattern.expand (l : List NoteDetails) : List NoteDetails :=
  if l.length = 1 then l ++ l
  else if l.length = 2 then l ++ l.reverse
  else l ++ ((l.drop 1).take (l.length - 2)).reverse

/-- Embedding of the `while notes.len() < steps` loop of `Pattern::of`
with explicit fuel; `expandLoop_total` shows fuel equal to `steps` always
suffices on a nonempty list, so `none` only stands for the panic the
source hits when expanding an empty list. -/
def expandLoop (steps : Nat) : Nat → List NoteDetails → Option (List NoteDetails)
  | 0, l => if steps ≤ l.length then some l else none
  | f + 1, l => if steps ≤ l.length then some l else expandLoop steps f (Pattern.expand l)

/-- Notes-per-step distribution of `Pattern::of`: `count` entries, the
first `r` of them `q+1`, the rest `q` (q = len div steps, r = len mod
steps, filled front-first exactly as the source's bump loop). -/
def notesPerStep (q : Nat) : Nat → Nat → List Nat
  | _, 0 => []
  | 0, count + 1 => q :: notesPerStep q 0 count
  | r + 1, count + 1 => (q + 1) :: notesPerStep q r count

/-- Step generation of `Pattern::of`: consume the ordered note list
left-to-right, taking the requested count for each step. -/
def chunks : List Nat → List NoteDetails → List Step
  | [], _ => []
  | k :: ks, l => Step.ofNotes (l.take k) :: chunks ks (l.drop k)

/-- Pattern::of (src/arpeggiator.rs lines 22-55). Returns `none` exactly
where the source panics: a step count of 0, or an empty note list (whose
first expansion panics). -/
def Pattern.of (p : Pattern) (notes : List NoteDetails) (steps : Nat) : Option (List Step) :=
  if steps = 0 then none
  else if notes.isEmpty then none
  else
    (expandLoop steps steps (sortNotes p notes)).map (fun big =>
      chunks (notesPerStep (big.length / steps) (big.length % steps) steps) big)

/-- Total number of notes across a step list. -/
def totalNotes (l : List Step) : Nat := (l.map (fun s => s.notes.length)).sum

/-! ## Timed step transposition (src/arpeggio.rs) -/

/-- TimedStep (src/arpeggio.rs `Step`): a wall-clock wait (in
nanoseconds, as a Nat) plus the simultaneous notes. -/
structure TimedStep where
  wait : Nat
  notes : List NoteDetails
deriving Repr, DecidableEq

/-- wmidi `Note::step`: move a pitch by a signed number of semitones,
failing when the result leaves 0..127. -/
def stepNote (n : Nat) (delta : Int) : Option Nat :=
  if 0 ≤ (n : Int) + delta ∧ (n : Int) + delta ≤ 127
  then some ((n : Int) + delta).toNat else none

/-- Step::transpose (src/arpeggio.rs lines 162-177): remap every pitch by
`half_steps`; notes whose new pitch fails the range check are dropped,
channel and velocity are copied, the wait is kept. -/
def TimedStep.transpose (s : TimedStep) (half_steps : Int) : TimedStep :=
  { wait := s.wait
    notes := s.notes.filterMap (fun d =>
      (stepNote d.n half_steps).map (fun m => { c := d.c, n := m, v := d.v })) }

/-! ## Synced arpeggio and player (src/arpeggio/synced.rs) -/

/-- Arpeggio (src/arpeggio/synced.rs): steps each carrying a tick count,
the cycle's total ticks and the finish-steps flag. -/
structure SArp where
  steps : List (Nat × Step)
  total_ticks : Nat
  finish_steps : Bool
deriving Repr, DecidableEq

/-- Arpeggio::from_steps (src/arpeggio/synced.rs lines 38-53): uniform
ticks per step, saturating to 1 when there are at least TICKS_PER_BEAT
steps; `none` models the panic on an empty step list. -/
def SArp.fromSteps (steps : List Step) (finish : Bool) : Option SArp :=
  if steps.length = 0 then none
  else
    let tps := if TICKS_PER_BEAT ≤ steps.length then 1 else TICKS_PER_BEAT / steps.length
    some { steps := steps.map (fun s => (tps, s))
           total_ticks := tps * steps.length
           finish_steps := finish }

/-- OptionIndex (src/arpeggio/synced.rs): the remembered last-sounded
step, either by index into the current arpeggio or detached by value. -/
inductive LastStep where
  | noStep
  | stepValue (s : Step)
  | stepIndex (i : Nat)
deriving Repr, DecidableEq

/-- Player (src/arpeggio/synced.rs): the tick-driven synced player. The
midi-out handle is replaced by returning emitted messages from each
operation. -/
structure SPlayer where
  arpeggio : SArp
  step : Nat
  last_step : LastStep
  wait_ticks : Nat
  should_stop : Bool
deriving Repr, DecidableEq

/-- Player::init (src/arpeggio/synced.rs lines 103-112). -/
def SPlayer.init (arp : SArp) : SPlayer :=
  { arpeggio := arp, step := 0, wait_ticks := 0, should_stop := false,
    last_step := LastStep.noStep }

/-- Player::last_step_off (src/arpeggio/synced.rs lines 114-120): the
note-offs of the remembered step; `none` models the index panic when a
remembered index no longer exists. -/
def SPlayer.lastStepOff (p : SPlayer) : Option (List Msg) :=
  match p.last_step with
  | LastStep.noStep => some []
  | LastStep.stepValue s => some s.sendOff
  | LastStep.stepIndex i => (p.arpeggio.steps.get? i).map (fun e => e.2.sendOff)

/-- Player::play_tick (src/arpeggio/synced.rs lines 122-147): returns the
updated player, the emitted messages and the liveness flag; `none` models
an index panic or the usize underflow of the trailing decrement. -/
def SPlayer.playTick (p : SPlayer) : Option (SPlayer × List Msg × Bool) :=
  if p.arpeggio.steps.length = 0 then some (p, [], false)
  else if p.should_stop ∧ ¬p.arpeggio.finish_steps then
    (p.lastStepOff).map (fun offs => (p, offs, false))
  else if p.wait_ticks = 0 then
    match p.lastStepOff with
    | none => none
    | some offs =>
      if p.should_stop ∧ p.step = 0 then some (p, offs, false)
      else
        match p.arpeggio.steps.get? p.step with
        | none => none
        | some (t, st) =>
          if t = 0 then none
          else
            let stepAfter := if p.step = p.arpeggio.steps.length - 1 then 0 else p.step + 1
            some ({ p with last_step := LastStep.stepIndex p.step,
                           step := stepAfter,
                           wait_ticks := t - 1 },
                  offs ++ st.sendOn, true)
  else some ({ p with wait_ticks := p.wait_ticks - 1 }, [], true)

/-- Sum of the tick counts of a step list segment. -/
def sumTicks (l : List (Nat × Step)) : Nat := (l.map Prod.fst).sum

/-- Ticks attributed to the steps before the current index, as computed
at the top of `change_arpeggio` (src/arpeggio/synced.rs lines 154-161):
the whole cycle when the index is 0, otherwise the ticks of the steps
below the index. -/
def SPlayer.ticksBefore (p : SPlayer) : Nat :=
  if p.step = 0 then p.arpeggio.total_ticks
  else sumTicks (p.arpeggio.steps.take p.step)

/-- The remainder-search loop of `change_arpeggio` (src/arpeggio/synced.rs
lines 165-172), with explicit fuel: subtract whole new steps cyclically
while the remaining offset exceeds the current step's ticks. `none`
models fuel exhaustion (the source loops forever on zero-tick steps) or
the index panic on an empty step list. -/
def caLoop (steps : List (Nat × Step)) : Nat → Nat → Nat → Option (Nat × Nat)
  | 0, _, _ => none
  | fuel + 1, s, ticks =>
    match steps.get? s with
    | none => none
    | some (t, _) =>
      if t < ticks then
        caLoop steps fuel (if s = steps.length - 1 then 0 else s + 1) (ticks - t)
      else some (s, ticks)

/-- The detach of the remembered last step at the top of
`change_arpeggio` (src/arpeggio/synced.rs lines 150-152): a remembered
index is copied out by value; `none` models the index panic on a dangling
index. -/
def detachLast (arp : SArp) : LastStep → Option LastStep
  | LastStep.stepIndex i => (arp.steps.get? i).map (fun e => LastStep.stepValue e.2)
  | other => some other

/-- Player::change_arpeggio (src/arpeggio/synced.rs lines 149-175):
detach the last-sounded step by value, convert the old position into
ticks since the cycle start, re-solve step and wait inside the new
arpeggio. `none` models the detach index panic, the index panic in the
tick summation (when the step index exceeds the step count), the usize
underflow of `ticks_since_start -= wait_ticks`, or a non-terminating
remainder loop. -/
def SPlayer.changeArpeggio (p : SPlayer) (arp : SArp) : Option SPlayer :=
  (detachLast p.arpeggio p.last_step).bind (fun last =>
    if p.arpeggio.steps.length < p.step then none
    else if p.ticksBefore < p.wait_ticks then none
    else
      (caLoop arp.steps (p.ticksBefore - p.wait_ticks + 1) 0
          (p.ticksBefore - p.wait_ticks)).bind (fun sr =>
        (arp.steps.get? sr.1).map (fun e =>
          { arpeggio := arp, step := sr.1, last_step := last,
            wait_ticks := e.1 - sr.2, should_stop := p.should_stop })))

/-- Player::force_stop (src/arpeggio/synced.rs lines 181-190): zero the
step and wait, set should_stop, run one play_tick; a tick that still
reports live becomes the error value instead of a panic. -/
def SPlayer.forceStop (p : SPlayer) : Option (SPlayer × List Msg × Except String Unit) :=
  let p0 := { p with step := 0, wait_ticks := 0, should_stop := true }
  (p0.playTick).map (fun r =>
    (r.1, r.2.1, if r.2.2 then Except.error "Failed to force stop arpeggio" else Except.ok ()))

/-- True for a NoteOn message. -/
def Msg.isOn : Msg → Bool
  | Msg.noteOn _ _ _ => true
  | _ => false

/-- Number of the first play_tick call (counting from 1) that emits a
step-on, searched up to the given fuel. -/
def firstOn : Nat → SPlayer → Option Nat
  | 0, _ => none
  | fuel + 1, p =>
    match p.playTick with
    | none => none
    | some (p2, msgs, _) =>
      if msgs.any Msg.isOn then some 1
      else (firstOn fuel p2).map (fun k => k + 1)

/-- States reachable from `Player::init` on an arpeggio built by
`Arpeggio::from_steps`, by `play_tick` calls and by `change_arpeggio`
swaps to further `from_steps` arpeggios. -/
inductive Reach : SPlayer → Prop where
  | init (steps : List Step) (finish : Bool) (arp : SArp) :
      SArp.fromSteps steps finish = some arp → Reach (SPlayer.init arp)
  | tick (p p2 : SPlayer) (msgs : List Msg) (live : Bool) :
      Reach p → p.playTick = some (p2, msgs, live) → Reach p2
  | change (p p2 : SPlayer) (steps : List Step) (finish : Bool) (arp : SArp) :
      Reach p → SArp.fromSteps steps finish = some arp →
      p.changeArpeggio arp = some p2 → Reach p2

/-- States reachable from `Player::init` by `play_tick` calls alone. -/
inductive ReachT : SPlayer → Prop where
  | init (steps : List Step) (finish : Bool) (arp : SArp) :
      SArp.fromSteps steps finish = some arp → ReachT (SPlayer.init arp)
  | tick (p p2 : SPlayer) (msgs : List Msg) (live : Bool) :
      ReachT p → p.playTick = some (p2, msgs, live) → ReachT p2

/-! ## Full-length arpeggio and player (src/arpeggio/full_length.rs) -/

/-- NOTE_MAX (src/arpeggio/full_length.rs line 7). The source uses this
value, 127, as the LENGTH of the per-pitch array. -/
def NOTE_MAX : Nat := 127

/-- Arpeggio (src/arpeggio/full_length.rs): a NOTE_MAX-long array of
optional velocities keyed by pitch, a fixed ticks-per-step and the
pattern. The array is embedded as a list of length NOTE_MAX. -/
structure FLArp where
  notes : List (Option Nat)
  ticks_per_step : Nat
  pattern : Pattern
deriving Repr, DecidableEq

/-- The all-clear bitmap `[None; NOTE_MAX]`. -/
def flEmptyNotes : List (Option Nat) := List.replicate NOTE_MAX none

/-- Arpeggio::note_on (src/arpeggio/full_length.rs lines 37-39): store
the velocity at index `n` of the NOTE_MAX-long array; `none` models the
out-of-bounds panic when `n` is not below the array length. -/
def FLArp.noteOn (a : FLArp) (n v : Nat) : Option FLArp :=
  if n < a.notes.length then some { a with notes := a.notes.set n (some v) }
  else none

/-- Arpeggio::note_off (src/arpeggio/full_length.rs lines 41-43): clear
index `n`; `none` models the out-of-bounds panic. -/
def FLArp.noteOff (a : FLArp) (n : Nat) : Option FLArp :=
  if n < a.notes.length then some { a with notes := a.notes.set n none }
  else none

/-- Arpeggio::from (src/arpeggio/full_length.rs lines 27-35): start from
the empty bitmap and apply `note_on`. -/
def FLArp.from (n v notes_per_beat : Nat) (p : Pattern) : Option FLArp :=
  FLArp.noteOn { notes := flEmptyNotes,
                 ticks_per_step := TICKS_PER_BEAT / notes_per_beat,
                 pattern := p } n v

/-- Player (src/arpeggio/full_length.rs). -/
structure FLPlayer where
  arpeggio : FLArp
  last_note : Nat
  wait_ticks : Nat
  should_stop : Bool
deriving Repr, DecidableEq

/-- Player::init (src/arpeggio/full_length.rs lines 55-63). -/
def FLPlayer.init (a : FLArp) : FLPlayer :=
  { arpeggio := a, last_note := NOTE_MAX - 1, wait_ticks := 0, should_stop := false }

/-- Cyclic advance of the sweep index over positions 0..NOTE_MAX-1, in
pattern order (src/arpeggio/full_length.rs lines 81-92). -/
def advance : Pattern → Nat → Nat
  | .up, i => if i = NOTE_MAX - 1 then 0 else i + 1
  | .down, i => if i = 0 then NOTE_MAX - 1 else i - 1

/-- Velocity stored at a position of the bitmap. -/
def FLArp.at (a : FLArp) (i : Nat) : Option Nat := (a.notes.get? i).join

/-- The next-note search loop of `Player::play_tick`
(src/arpeggio/full_length.rs lines 79-104) with explicit fuel:
`some (some i)` found a set bit at `i`, `some none` came back to the
start finding nothing, `none` means the fuel ran out. -/
def searchFL (a : FLArp) (start : Nat) : Nat → Nat → Option (Option Nat)
  | 0, _ => none
  | fuel + 1, cur =>
    let nxt := advance a.pattern cur
    if (a.at nxt).isSome then some (some nxt)
    else if nxt = start then some none
    else searchFL a start fuel nxt

/-- NoteOff emitted by `Player::last_note_off`
(src/arpeggio/full_length.rs lines 111-114): channel 1, zero velocity. -/
def flOffMsg (i : Nat) : Msg := Msg.noteOff 1 i 0

/-- Player::play_tick (src/arpeggio/full_length.rs lines 73-109), with
the inner loop given NOTE_MAX fuel — one full sweep; `none` models a
sweep that would exceed it. -/
def FLPlayer.playTick (p : FLPlayer) : Option (FLPlayer × List Msg × Bool) :=
  if p.should_stop then some (p, [flOffMsg p.last_note], false)
  else if p.wait_ticks = 0 then
    match searchFL p.arpeggio p.last_note NOTE_MAX p.last_note with
    | none => none
    | some none => some (p, [flOffMsg p.last_note], false)
    | some (some nxt) =>
      match p.arpeggio.at nxt with
      | none => none
      | some v =>
        some ({ p with last_note := nxt, wait_ticks := p.arpeggio.ticks_per_step - 1 },
              [flOffMsg p.last_note, Msg.noteOn 1 nxt v], true)
  else some ({ p with wait_ticks := p.wait_ticks - 1 }, [], true)

/-- Player::force_stop (src/arpeggio/full_length.rs lines 126-134). -/
def FLPlayer.forceStop (p : FLPlayer) : Option (FLPlayer × List Msg × Except String Unit) :=
  let p0 := { p with should_stop := true, wait_ticks := 0 }
  (p0.playTick).map (fun r =>
    (r.1, r.2.1, if r.2.2 then Except.error "Failed to force stop arpeggio" else Except.ok ()))

/-! ## Settings and the settings router (src/settings.rs) -/

/-- The Settings fields the verified components inspect; the remaining
fields of the source record do not affect the claims below and are
carried as an opaque tag so that distinct records stay distinct. -/
structure Settings where
  finish_pattern : Bool
  fixed_velocity : Option Nat
  tag : Nat := 0
deriving Repr, DecidableEq

/-- wmidi `ControlFunction::BANK_SELECT`. -/
def BANK_SELECT : Nat := 0

/-- wmidi `ControlFunction::BANK_SELECT_LSB`. -/
def BANK_SELECT_LSB : Nat := 32

/-- wmidi `ControlFunction::DAMPER_PEDAL`. -/
def DAMPER_PEDAL : Nat := 64

/-- RECEIVE_CHANNEL (src/settings.rs lines 107, 181): channel 1. -/
def RECEIVE_CHANNEL : Nat := 1

/-- `u8::from(U7::MAX)` as used by the wraparound index flattening. -/
def U7_MAX : Nat := 127

/-- WraparoundProgramChanges (src/settings.rs lines 71-121). -/
structure Wraparound where
  predefined : List Settings
  index : Nat
  msb : Nat
  lsb : Nat
  pc : Nat
deriving Repr, DecidableEq

/-- WraparoundProgramChanges::passthrough_midi (src/settings.rs lines
79-98): consume bank-select and program-change on channel 1, forward
everything else; `none` (outer) models the division-by-zero panic of the
modulo when the settings table is empty. -/
def Wraparound.passthroughMidi (s : Wraparound) (m : Msg) :
    Option (Wraparound × Option Msg) :=
  match m with
  | Msg.controlChange c fn v =>
    if c = RECEIVE_CHANNEL ∧ fn = BANK_SELECT then some ({ s with msb := v }, none)
    else if c = RECEIVE_CHANNEL ∧ fn = BANK_SELECT_LSB then some ({ s with lsb := v }, none)
    else some (s, some m)
  | Msg.programChange c pc =>
    if c = RECEIVE_CHANNEL then
      if s.predefined.length = 0 then none
      else
        some ({ s with pc := pc,
                       index := ((s.msb * U7_MAX + s.lsb) * U7_MAX + pc) % s.predefined.length },
              none)
    else some (s, some m)
  | m2 => some (s, some m2)

/-- SpecificProgramChanges (src/settings.rs lines 140-197): the lookup
table keyed by (msb, lsb, pc), the fallback default and the current
selection. -/
structure Specific where
  predefined : List ((Nat × Nat × Nat) × Settings)
  dflt : Settings
  current : Settings
  msb : Nat
  lsb : Nat
  pc : Nat
deriving Repr, DecidableEq

/-- SpecificProgramChanges::passthrough_midi (src/settings.rs lines
149-172): consume bank-select and program-change on channel 1 (the
program number stored 1-based), selecting the matching settings or the
default; forward everything else. -/
def Specific.passthroughMidi (s : Specific) (m : Msg) : Specific × Option Msg :=
  match m with
  | Msg.controlChange c fn v =>
    if c = RECEIVE_CHANNEL ∧ fn = BANK_SELECT then ({ s with msb := v }, none)
    else if c = RECEIVE_CHANNEL ∧ fn = BANK_SELECT_LSB then ({ s with lsb := v }, none)
    else (s, some m)
  | Msg.programChange c pc =>
    if c = RECEIVE_CHANNEL then
      let pc1 := pc + 1
      let chosen :=
        match s.predefined.find? (fun e => e.1 = (s.msb, s.lsb, pc1)) with
        | some e => e.2
        | none => s.dflt
      ({ s with pc := pc1, current := chosen }, none)
    else (s, some m)
  | m2 => (s, some m2)

/-- The three messages the settings router recognises: CC 0, CC 32 and
Program Change on channel 1 — the partition the claim describes. -/
def isSettingsMsg : Msg → Bool
  | Msg.controlChange c fn _ => c = RECEIVE_CHANNEL ∧ (fn = BANK_SELECT ∨ fn = BANK_SELECT_LSB)
  | Msg.programChange c _ => c = RECEIVE_CHANNEL
  | _ => false

/-! ## MutatingHold (src/arpeggiator/synced.rs lines 113-235) -/

/-- Modelled from the spec: `NoteDetails::new` (absent from the snapshot
of src/arpeggio.rs) records channel, pitch and velocity; a configured
fixed velocity overrides the recorded one, saturating at 127. -/
def NoteDetails.new (c n v : Nat) (fixed : Option Nat) : NoteDetails :=
  { c := c, n := n, v := match fixed with | some f => min f 127 | none => v }

/-- Modelled from the spec: the three-argument `Arpeggio::from` called by
MutatingHold (absent from the snapshot of src/arpeggio/synced.rs) builds
a synced arpeggio whose cycle spans the given whole number of beats,
dividing the beats' ticks uniformly over the steps. -/
def SArp.fromBeats (steps : List Step) (beats : Nat) (finish : Bool) : Option SArp :=
  if steps.length = 0 then none
  else
    let tps := beats * TICKS_PER_BEAT / steps.length
    some { steps := steps.map (fun s => (tps, s))
           total_ticks := tps * steps.length
           finish_steps := finish }

/-- MutatingHold (src/arpeggiator/synced.rs lines 113-120): held notes in
press order, the changed flag, the optional player, the pedal flag and
the deferred-release pitch set (embedded as a duplicate-free list). -/
structure MHState where
  held_notes : List NoteDetails
  changed : Bool
  arpeggio : Option SPlayer
  pedal : Bool
  pedal_notes_off : List Nat
deriving Repr, DecidableEq

/-- MutatingHold::new (src/arpeggiator/synced.rs lines 123-132). -/
def MHState.new : MHState :=
  { held_notes := [], changed := false, arpeggio := none, pedal := false,
    pedal_notes_off := [] }

/-- MutatingHold::release_note (src/arpeggiator/synced.rs lines 134-146):
drop every occurrence of the pitch from the held vector; set `changed`
only when the vector has become empty. -/
def MHState.releaseNote (s : MHState) (n : Nat) : MHState :=
  let held := s.held_notes.filter (fun d => d.n ≠ n)
  { s with held_notes := held, changed := s.changed || held.isEmpty }

/-- Release every pitch of a drained deferred-off list in order
(the pedal-release path of `process`). -/
def MHState.releaseAll (s : MHState) : List Nat → MHState
  | [] => s
  | n :: rest => (s.releaseNote n).releaseAll rest

/-- The rebuild gate of the TimingClock arm (src/arpeggiator/synced.rs
line 184): changed, and no player or a player that is not stopping. -/
def mhRebuildGate (s : MHState) : Bool :=
  s.changed &&
    match s.arpeggio with
    | none => true
    | some pl => !pl.should_stop

/-- The TimingClock arm of MutatingHold::process (src/arpeggiator/synced.rs
lines 183-207): maybe rebuild or stop, then advance the player one tick,
dropping it when it reports finished. -/
def mhTick (st : Settings) (s : MHState) : Option (MHState × List Msg) :=
  let afterRebuild : Option MHState :=
    if mhRebuildGate s then
      let s0 := { s with changed := false }
      if s0.held_notes.isEmpty then
        match s0.arpeggio with
        | some pl => some { s0 with arpeggio := some { pl with should_stop := true } }
        | none => some s0
      else
        let steps := s0.held_notes.map Step.note
        match SArp.fromBeats steps steps.length st.finish_pattern with
        | none => none
        | some arp =>
          match s0.arpeggio with
          | some pl => (pl.changeArpeggio arp).map (fun pl2 => { s0 with arpeggio := some pl2 })
          | none => some { s0 with arpeggio := some (SPlayer.init arp) }
    else some s
  match afterRebuild with
  | none => none
  | some s1 =>
    match s1.arpeggio with
    | none => some (s1, [])
    | some pl =>
      (pl.playTick).map (fun r =>
        ({ s1 with arpeggio := if r.2.2 then some r.1 else none }, r.2.1))

/-- MutatingHold::process (src/arpeggiator/synced.rs lines 150-218) on
the modelled message alphabet; the source's Reset arm and the status
signal are outside the verified claims and are not modelled. -/
def mhProcess (st : Settings) (s : MHState) (m : Msg) : Option (MHState × List Msg) :=
  match m with
  | Msg.controlChange _ fn v =>
    if fn = DAMPER_PEDAL then
      let newPedal := 64 ≤ v
      if s.pedal = newPedal then some (s, [])
      else
        let s1 := { s with pedal := newPedal }
        if newPedal then some (s1, [])
        else some (MHState.releaseAll { s1 with pedal_notes_off := [] } s1.pedal_notes_off, [])
    else some (s, [])
  | Msg.noteOn c n v =>
    if s.pedal_notes_off.contains n then
      some ({ s with pedal_notes_off := s.pedal_notes_off.erase n }, [])
    else
      some ({ s with held_notes := s.held_notes ++ [NoteDetails.new c n v st.fixed_velocity],
                     changed := true }, [])
  | Msg.noteOff _ n _ =>
    if s.pedal then
      some ({ s with pedal_notes_off :=
                if s.pedal_notes_off.contains n then s.pedal_notes_off
                else s.pedal_notes_off ++ [n] }, [])
    else some (s.releaseNote n, [])
  | Msg.timingClock => mhTick st s
  | _ => some (s, [])

/-! ## Lemmas: pattern expansion -/

theorem insertBy_length (le : NoteDetails → NoteDetails → Bool) (x : NoteDetails) :
    ∀ l : List NoteDetails, (insertBy le x l).length = l.length + 1 := by
  intro l
  induction l with
  | nil => rfl
  | cons y ys ih =>
    simp only [insertBy]
    by_cases h : le y x = true
    · simp [h, ih]
    · simp [h]

theorem sortNotes_length (p : Pattern) (l : List NoteDetails) :
    (sortNotes p l).length = l.length := by
  suffices h : ∀ (l : List NoteDetails) (acc : List NoteDetails),
      (l.foldl (fun acc x => insertBy p.le x acc) acc).length = acc.length + l.length by
    simpa using h l []
  intro l
  induction l with
  | nil => simp
  | cons x xs ih =>
    intro acc
    simp only [List.foldl_cons]
    rw [ih, insertBy_length]
    simp only [List.length_cons]
    omega

theorem expand_length (l : List NoteDetails) (h : 1 ≤ l.length) :
    l.length + 1 ≤ (Pattern.expand l).length := by
  unfold Pattern.expand
  by_cases h1 : l.length = 1
  · simp [h1]
  · by_cases h2 : l.length = 2
    · simp [h1, h2, List.length_reverse]
    · have h3 : 3 ≤ l.length := by omega
      simp only [h1, h2, if_false, List.length_append, List.length_reverse,
        List.length_take, List.length_drop]
      omega

theorem expandLoop_total (steps : Nat) :
    ∀ (f : Nat) (l : List NoteDetails), 1 ≤ l.length → steps ≤ l.length + f →
      ∃ big, expandLoop steps f l = some big ∧ steps ≤ big.length ∧ l.length ≤ big.length := by
  intro f
  induction f with
  | zero =>
    intro l h1 h2
    refine ⟨l, ?_, by omega, le_refl _⟩
    simp only [expandLoop]
    rw [if_pos (by omega)]
  | succ f ih =>
    intro l h1 h2
    by_cases hle : steps ≤ l.length
    · exact ⟨l, by simp only [expandLoop]; rw [if_pos hle], hle, le_refl _⟩
    · have hexp := expand_length l h1
      obtain ⟨big, hbig, hs, hl⟩ := ih (Pattern.expand l) (by omega) (by omega)
      refine ⟨big, ?_, hs, by omega⟩
      simp only [expandLoop]
      rw [if_neg hle]
      exact hbig

theorem notesPerStep_length (q : Nat) :
    ∀ (count r : Nat), (notesPerStep q r count).length = count := by
  intro count
  induction count with
  | zero => intro r; cases r <;> rfl
  | succ c ih =>
    intro r
    cases r with
    | zero => simp [notesPerStep, ih]
    | succ r => simp [notesPerStep, ih]

theorem notesPerStep_sum (q : Nat) :
    ∀ (count r : Nat), r ≤ count → (notesPerStep q r count).sum = q * count + r := by
  intro count
  induction count with
  | zero =>
    intro r hr
    interval_cases r
    rfl
  | succ c ih =>
    intro r hr
    cases r with
    | zero =>
      simp only [notesPerStep, List.sum_cons, ih 0 (by omega)]
      ring
    | succ r =>
      simp only [notesPerStep, List.sum_cons, ih r (by omega)]
      ring

theorem chunks_length : ∀ (ks : List Nat) (l : List NoteDetails),
    (chunks ks l).length = ks.length := by
  intro ks
  induction ks with
  | nil => intro l; rfl
  | cons k ks ih => intro l; simp [chunks, ih]

theorem chunks_total : ∀ (ks : List Nat) (l : List NoteDetails),
    ks.sum ≤ l.length → totalNotes (chunks ks l) = ks.sum := by
  intro ks
  induction ks with
  | nil => intro l _; rfl
  | cons k ks ih =>
    intro l hsum
    simp only [List.sum_cons] at hsum
    simp only [chunks, totalNotes, List.map_cons, List.sum_cons, Step.ofNotes,
      List.length_take]
    have hk : min k l.length = k := by omega
    have := ih (l.drop k) (by simp only [List.length_drop]; omega)
    simp only [totalNotes] at this
    rw [hk, this]

/-- C2. For every note vector of length n ≥ 1 and step count s ≥ 1,
`Pattern::of` succeeds, returns exactly s steps, and the total number of
notes across those steps is at least max(n, s). -/
theorem pattern_of_step_count_and_total (p : Pattern) (notes : List NoteDetails) (s : Nat)
    (hn : 1 ≤ notes.length) (hs : 1 ≤ s) :
    ∃ out, Pattern.of p notes s = some out ∧ out.length = s ∧
      max notes.length s ≤ totalNotes out := by
  have hne : notes.isEmpty = false := by
    cases notes with
    | nil => simp at hn
    | cons a l => rfl
  have hsort : (sortNotes p notes).length = notes.length := sortNotes_length p notes
  obtain ⟨big, hbig, hsb, hlb⟩ :=
    expandLoop_total s s (sortNotes p notes) (by omega) (by omega)
  refine ⟨chunks (notesPerStep (big.length / s) (big.length % s) s) big, ?_, ?_, ?_⟩
  · simp only [Pattern.of, hne]
    rw [if_neg (by omega), if_neg (by simp), hbig]
    rfl
  · rw [chunks_length, notesPerStep_length]
  · have hmod : big.length % s ≤ s := le_of_lt (Nat.mod_lt _ (by omega))
    have hsum : (notesPerStep (big.length / s) (big.length % s) s).sum = big.length := by
      rw [notesPerStep_sum _ _ _ hmod]
      rw [Nat.mul_comm]
      exact Nat.div_add_mod big.length s
    rw [chunks_total _ _ (by omega)]
    rw [hsum]
    omega

/-- C2 witness: the theorem applied to three concrete notes over five
steps. -/
theorem pattern_of_step_count_and_total_witness :
    ∃ out, Pattern.of Pattern.up [⟨1, 60, 100⟩, ⟨1, 64, 90⟩, ⟨1, 67, 80⟩] 5 = some out ∧
      out.length = 5 ∧ max 3 5 ≤ totalNotes out := by
  have h := pattern_of_step_count_and_total Pattern.up
    [⟨1, 60, 100⟩, ⟨1, 64, 90⟩, ⟨1, 67, 80⟩] 5 (by decide) (by decide)
  simpa using h

/-- C6 counterexample: with two held notes (pitches 60 and 64) and three
steps, `Pattern::of Up` puts BOTH notes into the first step — the output
is [lower+upper, upper, lower], not [lower, upper, lower] as claimed. -/
theorem pattern_up_two_notes_three_steps_cex :
    Pattern.of Pattern.up [⟨1, 60, 100⟩, ⟨1, 64, 100⟩] 3 =
      some [Step.ofNotes [⟨1, 60, 100⟩, ⟨1, 64, 100⟩],
            Step.ofNotes [⟨1, 64, 100⟩], Step.ofNotes [⟨1, 60, 100⟩]] ∧
    Pattern.of Pattern.up [⟨1, 60, 100⟩, ⟨1, 64, 100⟩] 3 ≠
      some [Step.ofNotes [⟨1, 60, 100⟩],
            Step.ofNotes [⟨1, 64, 100⟩], Step.ofNotes [⟨1, 60, 100⟩]] := by
  decide

/-- C6 amended. `Pattern::of Up` on two notes of pitches L < U with three
steps expands the pair to [L, U, U, L] and distributes it 2-1-1: the
first step holds L and U together, the second U alone, the third L
alone. -/
theorem pattern_up_two_notes_three_steps (d1 d2 : NoteDetails) (h : d1.n < d2.n) :
    Pattern.of Pattern.up [d1, d2] 3 =
      some [Step.ofNotes [d1, d2], Step.ofNotes [d2], Step.ofNotes [d1]] := by
  have hle : Pattern.le Pattern.up d1 d2 = true := by
    simp only [Pattern.le, decide_eq_true_eq]
    omega
  have hsort : sortNotes Pattern.up [d1, d2] = [d1, d2] := by
    simp [sortNotes, insertBy, hle]
  simp only [Pattern.of, List.isEmpty_cons, if_neg (by omega : ¬(3 = 0)), Bool.false_eq_true,
    if_false, hsort]
  simp [expandLoop, Pattern.expand, chunks, notesPerStep, Step.ofNotes]

/-- C6 witness: the amended theorem applied at pitches 60 < 64. -/
theorem pattern_up_two_notes_three_steps_witness :
    (60 : Nat) < 64 ∧
    Pattern.of Pattern.up [⟨1, 60, 100⟩, ⟨2, 64, 90⟩] 3 =
      some [Step.ofNotes [⟨1, 60, 100⟩, ⟨2, 64, 90⟩],
            Step.ofNotes [⟨2, 64, 90⟩], Step.ofNotes [⟨1, 60, 100⟩]] :=
  ⟨by decide, pattern_up_two_notes_three_steps ⟨1, 60, 100⟩ ⟨2, 64, 90⟩ (by decide)⟩

/-! ## Lemmas: transposition -/

theorem stepNote_comp (d : NoteDetails) (a b : Int)
    (h : stepNote d.n a = none → stepNote d.n (a + b) = none) :
    ((stepNote d.n a).map
        (fun m => ({ c := d.c, n := m, v := d.v } : NoteDetails))).bind
      (fun e => (stepNote e.n b).map
        (fun m2 => ({ c := e.c, n := m2, v := e.v } : NoteDetails))) =
    (stepNote d.n (a + b)).map (fun m => ({ c := d.c, n := m, v := d.v } : NoteDetails)) := by
  rcases hst : stepNote d.n a with _ | m
  · simp [h hst]
  · have hcond : 0 ≤ (d.n : Int) + a ∧ (d.n : Int) + a ≤ 127 := by
      by_contra hc
      simp only [stepNote, if_neg hc] at hst
      exact Option.noConfusion hst
    have hm : m = ((d.n : Int) + a).toNat := by
      simp only [stepNote, if_pos hcond, Option.some.injEq] at hst
      omega
    have hmz : (m : Int) = (d.n : Int) + a := by
      rw [hm]
      exact Int.toNat_of_nonneg hcond.1
    have hsame : stepNote m b = stepNote d.n (a + b) := by
      simp only [stepNote, hmz, Int.add_assoc]
    simp only [Option.map_some', Option.some_bind, hsame]

/-- C7. Transposing a step by a and then by b equals transposing by a+b,
provided every note dropped by the first transposition is also dropped by
the combined one; a transposition keeps the channel and velocity of every
surviving note. -/
theorem transpose_transpose (s : TimedStep) (a b : Int)
    (hdrop : ∀ d ∈ s.notes, stepNote d.n a = none → stepNote d.n (a + b) = none) :
    (s.transpose a).transpose b = s.transpose (a + b) ∧
    ∀ e ∈ (s.transpose a).notes, ∃ d ∈ s.notes,
      e.c = d.c ∧ e.v = d.v ∧ stepNote d.n a = some e.n := by
  constructor
  · unfold TimedStep.transpose
    simp only [TimedStep.mk.injEq, true_and]
    rw [List.filterMap_filterMap]
    exact List.filterMap_congr (fun d hd => stepNote_comp d a b (hdrop d hd))
  · intro e he
    simp only [TimedStep.transpose, List.mem_filterMap, Option.map_eq_some'] at he
    obtain ⟨d, hd, m, hsm, hme⟩ := he
    exact ⟨d, hd, by rw [← hme], by rw [← hme], by rw [hsm, ← hme]⟩

/-- C7 witness: pitches 120 and 60 shifted by +60 then −30; pitch 60
survives both orders, pitch 120 overflows at +60 and stays out of range
under the combined shift, so the dropped set is closed. -/
theorem transpose_transpose_witness :
    (∀ d ∈ ({ wait := 0, notes := [⟨1, 120, 100⟩, ⟨2, 60, 90⟩] } : TimedStep).notes,
        stepNote d.n 60 = none → stepNote d.n (60 + (-30)) = none) ∧
    (({ wait := 0, notes := [⟨1, 120, 100⟩, ⟨2, 60, 90⟩] } : TimedStep).transpose 60).transpose (-30) =
      ({ wait := 0, notes := [⟨1, 120, 100⟩, ⟨2, 60, 90⟩] } : TimedStep).transpose (60 + (-30)) :=
  ⟨by decide, (transpose_transpose { wait := 0, notes := [⟨1, 120, 100⟩, ⟨2, 60, 90⟩] }
      60 (-30) (by decide)).1⟩

/-! ## Lemmas: settings router -/

/-- C3. Both settings routers consume CC 0, CC 32 and Program Change on
channel 1 (their passthrough output is `none`) and forward every other
message unchanged; the wraparound router needs a nonempty settings table
(an empty one makes its modulo panic on a program change). -/
theorem settings_router_consumption (w : Wraparound) (sp : Specific) (m : Msg)
    (hw : 0 < w.predefined.length) :
    (∃ w2, w.passthroughMidi m = some (w2, if isSettingsMsg m then none else some m)) ∧
    (sp.passthroughMidi m).2 = (if isSettingsMsg m then none else some m) := by
  cases m with
  | controlChange c fn v =>
    by_cases hc : c = RECEIVE_CHANNEL
    · by_cases h0 : fn = BANK_SELECT
      · subst hc; subst h0
        refine ⟨⟨{ w with msb := v }, ?_⟩, ?_⟩ <;>
          simp [Wraparound.passthroughMidi, Specific.passthroughMidi, isSettingsMsg]
      · by_cases h32 : fn = BANK_SELECT_LSB
        · subst hc; subst h32
          refine ⟨⟨{ w with lsb := v }, ?_⟩, ?_⟩ <;>
            simp [Wraparound.passthroughMidi, Specific.passthroughMidi, isSettingsMsg,
              BANK_SELECT, BANK_SELECT_LSB]
        · refine ⟨⟨w, ?_⟩, ?_⟩ <;>
            simp [Wraparound.passthroughMidi, Specific.passthroughMidi, isSettingsMsg, h0, h32]
    · refine ⟨⟨w, ?_⟩, ?_⟩ <;>
        simp [Wraparound.passthroughMidi, Specific.passthroughMidi, isSettingsMsg, hc]
  | programChange c pc =>
    by_cases hc : c = RECEIVE_CHANNEL
    · subst hc
      refine ⟨⟨{ w with pc := pc, index := ((w.msb * U7_MAX + w.lsb) * U7_MAX + pc) % w.predefined.length }, ?_⟩, ?_⟩ <;>
        simp [Wraparound.passthroughMidi, Specific.passthroughMidi, isSettingsMsg,
          (by omega : w.predefined.length ≠ 0), List.length_pos.mp hw]
    · refine ⟨⟨w, ?_⟩, ?_⟩ <;>
        simp [Wraparound.passthroughMidi, Specific.passthroughMidi, isSettingsMsg, hc]
  | noteOn c n v =>
    exact ⟨⟨w, rfl⟩, rfl⟩
  | noteOff c n v =>
    exact ⟨⟨w, rfl⟩, rfl⟩
  | timingClock =>
    exact ⟨⟨w, rfl⟩, rfl⟩
  | other k =>
    exact ⟨⟨w, rfl⟩, rfl⟩

/-- C3 witness: a one-entry wraparound table and an empty specific table;
the program change on channel 1 is consumed. -/
theorem settings_router_consumption_witness :
    0 < ([{ finish_pattern := false, fixed_velocity := none }] : List Settings).length ∧
    (∃ w2, Wraparound.passthroughMidi
        { predefined := [{ finish_pattern := false, fixed_velocity := none }],
          index := 0, msb := 0, lsb := 0, pc := 0 } (Msg.programChange 1 5) =
      some (w2, if isSettingsMsg (Msg.programChange 1 5) then none
                else some (Msg.programChange 1 5))) :=
  ⟨by decide,
    (settings_router_consumption
      { predefined := [{ finish_pattern := false, fixed_velocity := none }],
        index := 0, msb := 0, lsb := 0, pc := 0 }
      { predefined := [], dflt := { finish_pattern := false, fixed_velocity := none },
        current := { finish_pattern := false, fixed_velocity := none },
        msb := 0, lsb := 0, pc := 0 }
      (Msg.programChange 1 5) (by decide)).1⟩

/-! ## Lemmas: synced force-stop -/

/-- C4. On any synced player whose arpeggio has at least one step and
whose remembered last-step index is in range, `force_stop` zeroes the
wait counter and step index, sets should_stop, and the `play_tick` it
invokes emits the remembered step's note-offs and reports not-live, so
`force_stop` returns Ok; by construction a live report would instead
become the error value, never a panic. -/
theorem force_stop_returns_ok (p : SPlayer)
    (hlen : 1 ≤ p.arpeggio.steps.length)
    (hlast : ∀ i, p.last_step = LastStep.stepIndex i → i < p.arpeggio.steps.length) :
    ∃ msgs,
      p.forceStop = some ({ p with step := 0, wait_ticks := 0, should_stop := true },
        msgs, Except.ok ()) ∧
      SPlayer.lastStepOff { p with step := 0, wait_ticks := 0, should_stop := true } =
        some msgs := by
  have hoff : ∃ offs, SPlayer.lastStepOff
      { p with step := 0, wait_ticks := 0, should_stop := true } = some offs := by
    cases hls : p.last_step with
    | noStep => exact ⟨[], by simp [SPlayer.lastStepOff, hls]⟩
    | stepValue s => exact ⟨s.sendOff, by simp [SPlayer.lastStepOff, hls]⟩
    | stepIndex i =>
      have hi := hlast i hls
      rcases hg : p.arpeggio.steps.get? i with _ | e
      · exact absurd (List.get?_eq_none.mp hg) (by omega)
      · refine ⟨e.2.sendOff, ?_⟩
        simp only [SPlayer.lastStepOff, hls, hg]
        rfl
  obtain ⟨offs, hoffs⟩ := hoff
  refine ⟨offs, ?_, hoffs⟩
  have hlen2 : ¬(p.arpeggio.steps.length = 0) := by omega
  have hpt : SPlayer.playTick { p with step := 0, wait_ticks := 0, should_stop := true } =
      some ({ p with step := 0, wait_ticks := 0, should_stop := true }, offs, false) := by
    cases hf : p.arpeggio.finish_steps
    · simp [SPlayer.playTick, hoffs, hf, hlen2]
    · simp [SPlayer.playTick, hoffs, hf, hlen2]
  simp [SPlayer.forceStop, hpt]

/-- A concrete mid-cycle synced player used to witness the force-stop
theorem. -/
def fsDemo : SPlayer where
  arpeggio := { steps := [(6, Step.ofNotes [⟨1, 60, 100⟩])], total_ticks := 6, finish_steps := false }
  step := 0
  last_step := LastStep.stepIndex 0
  wait_ticks := 3
  should_stop := false

/-- C4 witness: forcing a stop on the concrete player emits the
remembered step's note-off and returns Ok. -/
theorem force_stop_returns_ok_witness :
    1 ≤ fsDemo.arpeggio.steps.length ∧
    ∃ msgs,
      fsDemo.forceStop =
        some ({ fsDemo with step := 0, wait_ticks := 0, should_stop := true },
          msgs, Except.ok ()) ∧
      SPlayer.lastStepOff { fsDemo with step := 0, wait_ticks := 0, should_stop := true } =
        some msgs := by
  refine ⟨by simp [fsDemo], ?_⟩
  exact force_stop_returns_ok fsDemo (by simp [fsDemo])
    (by intro i h; simp [fsDemo] at h ⊢; omega)

/-! ## Lemmas: full-length player -/

/-- C5. Evaluating the full-length bitmap at the boundary: the note
array has only NOTE_MAX = 127 entries (pitches 0..126), so `note_on` and
`note_off` at the valid MIDI pitch 127 hit the out-of-bounds index and
panic, while pitch 126 succeeds — the bitmap does not cover every pitch
0..127. -/
theorem fl_bitmap_misses_pitch_127 :
    FLArp.noteOn { notes := flEmptyNotes, ticks_per_step := 6, pattern := Pattern.up } 127 100
      = none ∧
    FLArp.noteOff { notes := flEmptyNotes, ticks_per_step := 6, pattern := Pattern.up } 127
      = none ∧
    (FLArp.noteOn { notes := flEmptyNotes, ticks_per_step := 6, pattern := Pattern.up } 126 100).isSome
      = true ∧
    flEmptyNotes.length = 127 := by
  refine ⟨?_, ?_, ?_, ?_⟩ <;>
    simp [FLArp.noteOn, FLArp.noteOff, flEmptyNotes, NOTE_MAX]

/-- Number of positions the sweep moves per iteration, as a residue
modulo NOTE_MAX: +1 for Up, −1 (≡ 126) for Down. -/
def advStep : Pattern → Nat
  | .up => 1
  | .down => NOTE_MAX - 1

theorem advance_eq_mod (pat : Pattern) (i : Nat) (h : i < NOTE_MAX) :
    advance pat i = (i + advStep pat) % NOTE_MAX := by
  cases pat
  · simp only [advance, advStep, NOTE_MAX] at h ⊢
    by_cases h126 : i = 126
    · simp [h126]
    · rw [if_neg h126, Nat.mod_eq_of_lt (by omega)]
  · simp only [advance, advStep, NOTE_MAX] at h ⊢
    by_cases h0 : i = 0
    · simp [h0]
    · rw [if_neg h0]
      omega

theorem advance_lt (pat : Pattern) (i : Nat) (h : i < NOTE_MAX) :
    advance pat i < NOTE_MAX := by
  rw [advance_eq_mod pat i h]
  exact Nat.mod_lt _ (by simp [NOTE_MAX])

theorem advance_iterate (pat : Pattern) :
    ∀ (k i : Nat), i < NOTE_MAX →
      (advance pat)^[k] i = (i + k * advStep pat) % NOTE_MAX := by
  intro k
  induction k with
  | zero =>
    intro i h
    simp [Nat.mod_eq_of_lt h]
  | succ k ih =>
    intro i h
    rw [Function.iterate_succ_apply, ih (advance pat i) (advance_lt pat i h),
      advance_eq_mod pat i h, Nat.mod_add_mod]
    ring_nf

theorem advance_iterate_full (pat : Pattern) (i : Nat) (h : i < NOTE_MAX) :
    (advance pat)^[NOTE_MAX] i = i := by
  rw [advance_iterate pat NOTE_MAX i h]
  simp only [NOTE_MAX] at h ⊢
  omega

theorem searchFL_definitive (a : FLArp) (start : Nat) :
    ∀ (fuel cur : Nat),
      (∃ k, 1 ≤ k ∧ k ≤ fuel ∧ (advance a.pattern)^[k] cur = start) →
      searchFL a start fuel cur ≠ none := by
  intro fuel
  induction fuel with
  | zero =>
    intro cur hk
    obtain ⟨k, hk1, hk2, _⟩ := hk
    omega
  | succ fuel ih =>
    intro cur hk
    obtain ⟨k, hk1, hk2, hk3⟩ := hk
    simp only [searchFL]
    by_cases hfound : (a.at (advance a.pattern cur)).isSome = true
    · simp [hfound]
    · rw [if_neg hfound]
      by_cases hback : advance a.pattern cur = start
      · simp [hback]
      · rw [if_neg hback]
        apply ih
        refine ⟨k - 1, ?_, by omega, ?_⟩
        · rcases Nat.eq_or_lt_of_le hk1 with h1 | h1
          · exfalso
            apply hback
            rw [← hk3, ← h1]
            simp
          · omega
        · have hsk : k - 1 + 1 = k := by omega
          have h2 : (advance a.pattern)^[k - 1 + 1] cur = start := by
            rw [hsk]
            exact hk3
          rw [Function.iterate_succ_apply] at h2
          exact h2

theorem searchFL_found_isSome (a : FLArp) (start : Nat) :
    ∀ (fuel cur nxt : Nat), searchFL a start fuel cur = some (some nxt) →
      (a.at nxt).isSome = true := by
  intro fuel
  induction fuel with
  | zero => intro cur nxt h; exact Option.noConfusion h
  | succ fuel ih =>
    intro cur nxt h
    simp only [searchFL] at h
    by_cases hfound : (a.at (advance a.pattern cur)).isSome = true
    · rw [if_pos hfound] at h
      obtain rfl : advance a.pattern cur = nxt := by
        simpa using h
      exact hfound
    · rw [if_neg hfound] at h
      by_cases hback : advance a.pattern cur = start
      · rw [if_pos hback] at h
        simp at h
      · rw [if_neg hback] at h
        exact ih _ _ h

/-- C10. The full-length `play_tick` terminates for every bitmap and
pattern: with the sweep index in range, the inner search with one full
sweep of fuel (NOTE_MAX iterations) is always definitive — it finds a
set bit or returns to the start — so `play_tick` never fails to return. -/
theorem fl_play_tick_terminates (p : FLPlayer) (h : p.last_note < NOTE_MAX) :
    (p.playTick).isSome = true := by
  unfold FLPlayer.playTick
  by_cases hs : p.should_stop = true
  · simp [hs]
  · rw [if_neg hs]
    by_cases hw : p.wait_ticks = 0
    · rw [if_pos hw]
      have hdef := searchFL_definitive p.arpeggio p.last_note NOTE_MAX p.last_note
        ⟨NOTE_MAX, by simp [NOTE_MAX], le_refl _,
          advance_iterate_full p.arpeggio.pattern p.last_note h⟩
      rcases hsr : searchFL p.arpeggio p.last_note NOTE_MAX p.last_note with _ | r
      · exact absurd hsr hdef
      · rcases r with _ | nxt
        · simp
        · have hv := searchFL_found_isSome p.arpeggio p.last_note NOTE_MAX p.last_note nxt hsr
          rcases hval : p.arpeggio.at nxt with _ | v
          · rw [hval] at hv
            simp at hv
          · simp [hval]
    · rw [if_neg hw]
      simp

/-- A concrete full-length arpeggio holding only pitch 60, to witness
the termination theorem. -/
def flDemo : FLArp where
  notes := flEmptyNotes.set 60 (some 100)
  ticks_per_step := 6
  pattern := Pattern.up

/-- C10 witness: one tick of a freshly initialised player over a bitmap
holding pitch 60 returns (the sweep finds the bit within one pass). -/
theorem fl_play_tick_terminates_witness :
    (FLPlayer.init flDemo).last_note < NOTE_MAX ∧
    ((FLPlayer.init flDemo).playTick).isSome = true :=
  ⟨by decide, fl_play_tick_terminates (FLPlayer.init flDemo) (by decide)⟩

/-! ## Lemmas: synced player invariant -/

/-- Invariant of reachable synced players: a nonempty uniformly-ticked
arpeggio, a step index in range, a wait counter strictly below the ticks
attributed to the steps before it, and an in-range remembered index. -/
def SInv (p : SPlayer) : Prop :=
  1 ≤ p.arpeggio.steps.length ∧
  (∃ t, 1 ≤ t ∧ (∀ e ∈ p.arpeggio.steps, e.1 = t) ∧
    p.arpeggio.total_ticks = t * p.arpeggio.steps.length) ∧
  p.step < p.arpeggio.steps.length ∧
  p.wait_ticks < p.ticksBefore ∧
  (∀ i, p.last_step = LastStep.stepIndex i → i < p.arpeggio.steps.length)

theorem fromSteps_uniform (steps : List Step) (finish : Bool) (arp : SArp)
    (h : SArp.fromSteps steps finish = some arp) :
    1 ≤ arp.steps.length ∧
    ∃ t, 1 ≤ t ∧ (∀ e ∈ arp.steps, e.1 = t) ∧
      arp.total_ticks = t * arp.steps.length := by
  unfold SArp.fromSteps at h
  by_cases h0 : steps.length = 0
  · rw [if_pos h0] at h
    exact Option.noConfusion h
  · rw [if_neg h0] at h
    obtain rfl := (Option.some.inj h).symm
    refine ⟨by simpa using by omega, ?_⟩
    refine ⟨if TICKS_PER_BEAT ≤ steps.length then 1 else TICKS_PER_BEAT / steps.length,
      ?_, ?_, ?_⟩
    · by_cases h24 : TICKS_PER_BEAT ≤ steps.length
      · simp [h24]
      · rw [if_neg h24]
        rw [Nat.one_le_div_iff (by omega)]
        simp only [TICKS_PER_BEAT] at h24 ⊢
        omega
    · intro e he
      simp only [List.mem_map] at he
      obtain ⟨s, _, rfl⟩ := he
      rfl
    · simp

theorem sumTicks_uniform (t : Nat) :
    ∀ (l : List (Nat × Step)), (∀ e ∈ l, e.1 = t) → sumTicks l = l.length * t := by
  intro l
  induction l with
  | nil => intro _; simp [sumTicks]
  | cons e l ih =>
    intro h
    simp only [sumTicks, List.map_cons, List.sum_cons, List.length_cons]
    have he := h e (by simp)
    have := ih (fun x hx => h x (by simp [hx]))
    simp only [sumTicks] at this
    rw [he, this]
    ring

theorem sumTicks_take_uniform (t : Nat) (l : List (Nat × Step)) (k : Nat)
    (h : ∀ e ∈ l, e.1 = t) (hk : k ≤ l.length) :
    sumTicks (l.take k) = k * t := by
  rw [sumTicks_uniform t (l.take k) (fun e he => h e (List.take_subset k l he))]
  rw [List.length_take]
  congr 1
  omega

/-- Under the invariant, the tick total before the current step is at
least one whole step's ticks. -/
theorem ticksBefore_ge_tps (p : SPlayer) (t : Nat) (ht : 1 ≤ t)
    (huni : ∀ e ∈ p.arpeggio.steps, e.1 = t)
    (htot : p.arpeggio.total_ticks = t * p.arpeggio.steps.length)
    (hlen : 1 ≤ p.arpeggio.steps.length)
    (hstep : p.step < p.arpeggio.steps.length) :
    t ≤ p.ticksBefore := by
  unfold SPlayer.ticksBefore
  by_cases h0 : p.step = 0
  · rw [if_pos h0, htot]
    exact Nat.le_mul_of_pos_right t (by omega)
  · rw [if_neg h0, sumTicks_take_uniform t _ _ huni (by omega)]
    exact Nat.le_mul_of_pos_left t (by omega)

theorem SInv_init (steps : List Step) (finish : Bool) (arp : SArp)
    (h : SArp.fromSteps steps finish = some arp) : SInv (SPlayer.init arp) := by
  obtain ⟨hlen, t, ht, huni, htot⟩ := fromSteps_uniform steps finish arp h
  have hstep : (SPlayer.init arp).step < (SPlayer.init arp).arpeggio.steps.length := by
    simp only [SPlayer.init]
    omega
  refine ⟨hlen, ⟨t, ht, huni, htot⟩, hstep, ?_, ?_⟩
  · show (0 : Nat) < SPlayer.ticksBefore (SPlayer.init arp)
    have := ticksBefore_ge_tps (SPlayer.init arp) t ht huni htot hlen hstep
    omega
  · intro i hi
    exact absurd hi (by simp [SPlayer.init])

theorem SInv_playTick (p p2 : SPlayer) (msgs : List Msg) (live : Bool)
    (hinv : SInv p) (h : p.playTick = some (p2, msgs, live)) : SInv p2 := by
  obtain ⟨hlen, ⟨t, ht, huni, htot⟩, hstep, hwait, hlast⟩ := hinv
  unfold SPlayer.playTick at h
  split at h
  · rename_i hlen0
    exact absurd hlen0 (by omega)
  · split at h
    · rcases hoff : p.lastStepOff with _ | offs <;> rw [hoff] at h
      · exact Option.noConfusion h
      · simp only [Option.map_some', Option.some.injEq, Prod.mk.injEq] at h
        obtain ⟨rfl, rfl, rfl⟩ := h
        exact ⟨hlen, ⟨t, ht, huni, htot⟩, hstep, hwait, hlast⟩
    · split at h
      · split at h
        · exact Option.noConfusion h
        · rename_i offs hoff
          split at h
          · simp only [Option.some.injEq, Prod.mk.injEq] at h
            obtain ⟨rfl, rfl, rfl⟩ := h
            exact ⟨hlen, ⟨t, ht, huni, htot⟩, hstep, hwait, hlast⟩
          · split at h
            · exact Option.noConfusion h
            · rename_i tk st hg
              split at h
              · exact Option.noConfusion h
              · rename_i ht0
                simp only [Option.some.injEq, Prod.mk.injEq] at h
                obtain ⟨rfl, rfl, rfl⟩ := h
                have htk : tk = t := by
                  have hmem : (tk, st) ∈ p.arpeggio.steps := List.get?_mem hg
                  simpa using huni (tk, st) hmem
                have hstep2 : (if p.step = p.arpeggio.steps.length - 1 then 0 else p.step + 1)
                    < p.arpeggio.steps.length := by
                  by_cases hl : p.step = p.arpeggio.steps.length - 1
                  · rw [if_pos hl]
                    omega
                  · rw [if_neg hl]
                    omega
                refine ⟨hlen, ⟨t, ht, huni, htot⟩, hstep2, ?_, ?_⟩
                · have hge := ticksBefore_ge_tps
                    { p with last_step := LastStep.stepIndex p.step,
                             step := if p.step = p.arpeggio.steps.length - 1 then 0
                                     else p.step + 1,
                             wait_ticks := tk - 1 }
                    t ht huni htot hlen hstep2
                  show tk - 1 < _
                  omega
                · intro i hi
                  simp only at hi
                  obtain rfl := (LastStep.stepIndex.inj hi).symm
                  exact hstep
      · simp only [Option.some.injEq, Prod.mk.injEq] at h
        obtain ⟨rfl, rfl, rfl⟩ := h
        refine ⟨hlen, ⟨t, ht, huni, htot⟩, hstep, ?_, hlast⟩
        show p.wait_ticks - 1 < _
        have htb : SPlayer.ticksBefore { p with wait_ticks := p.wait_ticks - 1 } =
            p.ticksBefore := rfl
        rw [htb]
        rename_i hw
        omega

theorem caLoop_post (steps : List (Nat × Step)) :
    ∀ (fuel s ticks s2 rem : Nat), caLoop steps fuel s ticks = some (s2, rem) →
      (∃ e, steps.get? s2 = some e ∧ rem ≤ e.1) ∧ (1 ≤ ticks → 1 ≤ rem) := by
  intro fuel
  induction fuel with
  | zero =>
    intro s ticks s2 rem h
    exact Option.noConfusion h
  | succ fuel ih =>
    intro s ticks s2 rem h
    unfold caLoop at h
    split at h
    · exact Option.noConfusion h
    · rename_i tk st hg
      split at h
      · rename_i hlt
        have := ih _ _ _ _ h
        exact ⟨this.1, fun _ => this.2 (by omega)⟩
      · rename_i hlt
        simp only [Option.some.injEq, Prod.mk.injEq] at h
        obtain ⟨rfl, rfl⟩ := h
        exact ⟨⟨(tk, st), hg, (by omega : _ ≤ tk)⟩, fun hT => hT⟩

theorem caLoop_uniform (steps : List (Nat × Step)) (t : Nat) (ht : 1 ≤ t)
    (hlen : 1 ≤ steps.length) (huni : ∀ e ∈ steps, e.1 = t) :
    ∀ (fuel s ticks : Nat), s < steps.length → 1 ≤ ticks → ticks ≤ fuel →
      ∃ s2, caLoop steps fuel s ticks = some (s2, (ticks - 1) % t + 1) := by
  intro fuel
  induction fuel with
  | zero =>
    intro s ticks _ h1 h2
    omega
  | succ fuel ih =>
    intro s ticks hs h1 h2
    rcases hg : steps.get? s with _ | e
    · exact absurd (List.get?_eq_none.mp hg) (by omega)
    · obtain ⟨tk, st⟩ := e
      have he : tk = t := by simpa using huni (tk, st) (List.get?_mem hg)
      by_cases hlt : tk < ticks
      · have hnext : (if s = steps.length - 1 then 0 else s + 1) < steps.length := by
          by_cases hl : s = steps.length - 1
          · rw [if_pos hl]; omega
          · rw [if_neg hl]; omega
        obtain ⟨s2, hres⟩ := ih (if s = steps.length - 1 then 0 else s + 1)
          (ticks - tk) hnext (by omega) (by omega)
        refine ⟨s2, ?_⟩
        unfold caLoop
        rw [hg]
        show (if tk < ticks then
            caLoop steps fuel (if s = steps.length - 1 then 0 else s + 1) (ticks - tk)
          else some (s, ticks)) = _
        rw [if_pos hlt, hres]
        have hmod : (ticks - tk - 1) % t = (ticks - 1) % t := by
          rw [he] at hlt ⊢
          have hsub : ticks - t - 1 = ticks - 1 - t := by omega
          have hadd : ticks - 1 - t + t = ticks - 1 := by omega
          rw [hsub]
          conv_rhs => rw [← hadd]
          rw [Nat.add_mod_right]
        rw [hmod]
      · refine ⟨s, ?_⟩
        unfold caLoop
        rw [hg]
        show (if tk < ticks then
            caLoop steps fuel (if s = steps.length - 1 then 0 else s + 1) (ticks - tk)
          else some (s, ticks)) = _
        rw [if_neg hlt]
        have : (ticks - 1) % t + 1 = ticks := by
          rw [Nat.mod_eq_of_lt (by omega)]
          omega
        rw [this]

theorem detachLast_some (p : SPlayer)
    (hlast : ∀ i, p.last_step = LastStep.stepIndex i → i < p.arpeggio.steps.length) :
    ∃ last, detachLast p.arpeggio p.last_step = some last ∧
      ∀ i, last ≠ LastStep.stepIndex i := by
  cases hls : p.last_step with
  | noStep => exact ⟨LastStep.noStep, rfl, fun i h => LastStep.noConfusion h⟩
  | stepValue s => exact ⟨LastStep.stepValue s, rfl, fun i h => LastStep.noConfusion h⟩
  | stepIndex i =>
    have hi := hlast i hls
    rcases hg : p.arpeggio.steps.get? i with _ | e
    · exact absurd (List.get?_eq_none.mp hg) (by omega)
    · refine ⟨LastStep.stepValue e.2, ?_, fun j h => LastStep.noConfusion h⟩
      simp only [detachLast, hg, Option.map_some']

/-- The ticks elapsed since the cycle start, as `change_arpeggio` derives
them from the old step index and wait counter. -/
def SPlayer.ticksSinceStart (p : SPlayer) : Nat := p.ticksBefore - p.wait_ticks

theorem changeArpeggio_spec (p : SPlayer) (arp2 : SArp) (t2 : Nat)
    (hinv : SInv p) (hlen2 : 1 ≤ arp2.steps.length) (ht2 : 1 ≤ t2)
    (huni2 : ∀ e ∈ arp2.steps, e.1 = t2)
    (htot2 : arp2.total_ticks = t2 * arp2.steps.length) :
    ∃ p2, p.changeArpeggio arp2 = some p2 ∧
      p2.arpeggio = arp2 ∧
      p2.wait_ticks = t2 - 1 - ((p.ticksSinceStart - 1) % t2) ∧
      p2.should_stop = p.should_stop ∧
      SInv p2 := by
  obtain ⟨hlen, ⟨t, ht, huni, htot⟩, hstep, hwait, hlast⟩ := hinv
  obtain ⟨last, hdet, hnotidx⟩ := detachLast_some p hlast
  have hT1 : 1 ≤ p.ticksSinceStart := by
    unfold SPlayer.ticksSinceStart
    omega
  obtain ⟨s2, hloop⟩ := caLoop_uniform arp2.steps t2 ht2 hlen2 huni2
    (p.ticksSinceStart + 1) 0 p.ticksSinceStart (by omega) hT1 (by omega)
  have hpost := caLoop_post arp2.steps (p.ticksSinceStart + 1) 0 p.ticksSinceStart s2
    ((p.ticksSinceStart - 1) % t2 + 1) hloop
  obtain ⟨⟨e, hge, hrem⟩, -⟩ := hpost
  have he : e.1 = t2 := huni2 e (List.get?_mem hge)
  have hs2lt : s2 < arp2.steps.length := by
    rcases List.get?_eq_some.mp hge with ⟨hlt, -⟩
    exact hlt
  have hcomp : p.changeArpeggio arp2 =
      some { arpeggio := arp2, step := s2, last_step := last,
             wait_ticks := e.1 - ((p.ticksSinceStart - 1) % t2 + 1),
             should_stop := p.should_stop } := by
    unfold SPlayer.changeArpeggio
    rw [hdet, Option.some_bind, if_neg (by omega), if_neg (by omega)]
    show (caLoop arp2.steps (p.ticksSinceStart + 1) 0 p.ticksSinceStart).bind _ = _
    rw [hloop, Option.some_bind]
    show (arp2.steps.get? s2).map _ = _
    rw [hge, Option.map_some']
  refine ⟨_, hcomp, rfl, ?_, rfl, ?_⟩
  · show e.1 - ((p.ticksSinceStart - 1) % t2 + 1) = t2 - 1 - (p.ticksSinceStart - 1) % t2
    omega
  · have hwait2 : e.1 - ((p.ticksSinceStart - 1) % t2 + 1) < t2 := by
      have := Nat.mod_lt (p.ticksSinceStart - 1) (show 0 < t2 by omega)
      omega
    refine ⟨hlen2, ⟨t2, ht2, huni2, htot2⟩, hs2lt, ?_, ?_⟩
    · have hge2 := ticksBefore_ge_tps
        { arpeggio := arp2, step := s2, last_step := last,
          wait_ticks := e.1 - ((p.ticksSinceStart - 1) % t2 + 1),
          should_stop := p.should_stop }
        t2 ht2 huni2 htot2 hlen2 hs2lt
      show e.1 - ((p.ticksSinceStart - 1) % t2 + 1) < _
      omega
    · intro i hi
      exact absurd hi (hnotidx i)

theorem reach_inv (p : SPlayer) (h : Reach p) : SInv p := by
  induction h with
  | init steps finish arp harp => exact SInv_init steps finish arp harp
  | tick p p2 msgs live _ hpt ih => exact SInv_playTick p p2 msgs live ih hpt
  | change p p2 steps finish arp _ harp hc ih =>
    obtain ⟨hlen2, t2, ht2, huni2, htot2⟩ := fromSteps_uniform steps finish arp harp
    obtain ⟨q, hq, -, -, -, hinvq⟩ := changeArpeggio_spec p arp t2 ih hlen2 ht2 huni2 htot2
    rw [hc] at hq
    obtain rfl := Option.some.inj hq
    exact hinvq

theorem reachT_reach (p : SPlayer) (h : ReachT p) : Reach p := by
  induction h with
  | init steps finish arp harp => exact Reach.init steps finish arp harp
  | tick p p2 msgs live _ hpt ih => exact Reach.tick p p2 msgs live ih hpt

/-- The (uniform) ticks-per-step of a synced arpeggio, read from its
first step. -/
def SArp.tps (a : SArp) : Nat :=
  match a.steps.head? with
  | some e => e.1
  | none => 0

theorem tps_of_uniform (a : SArp) (t : Nat) (hlen : 1 ≤ a.steps.length)
    (huni : ∀ e ∈ a.steps, e.1 = t) : a.tps = t := by
  unfold SArp.tps
  rcases hh : a.steps.head? with _ | e
  · rw [List.head?_eq_none_iff] at hh
    rw [hh] at hlen
    simp at hlen
  · exact huni e (List.mem_of_mem_head? hh)

theorem lastStepOff_some (p : SPlayer)
    (hlast : ∀ i, p.last_step = LastStep.stepIndex i → i < p.arpeggio.steps.length) :
    ∃ offs, p.lastStepOff = some offs := by
  cases hls : p.last_step with
  | noStep => exact ⟨[], by simp [SPlayer.lastStepOff, hls]⟩
  | stepValue s => exact ⟨s.sendOff, by simp [SPlayer.lastStepOff, hls]⟩
  | stepIndex i =>
    have hi := hlast i hls
    rcases hg : p.arpeggio.steps.get? i with _ | e
    · exact absurd (List.get?_eq_none.mp hg) (by omega)
    · refine ⟨e.2.sendOff, ?_⟩
      simp only [SPlayer.lastStepOff, hls, hg]
      rfl

theorem sendOn_has_on (st : Step) (h : st.notes ≠ []) :
    (st.sendOn).any Msg.isOn = true := by
  cases hn : st.notes with
  | nil => exact absurd hn h
  | cons d l => simp [Step.sendOn, hn, Msg.isOn]

/-- A live, in-invariant player with nonempty steps fires its next
step-on exactly wait+1 play_tick calls later. -/
theorem firstOn_of_inv (w : Nat) :
    ∀ (p : SPlayer), SInv p → p.should_stop = false →
      (∀ e ∈ p.arpeggio.steps, e.2.notes ≠ []) → p.wait_ticks = w →
      firstOn (w + 1) p = some (w + 1) := by
  induction w with
  | zero =>
    intro p hinv hstop hnotes hw
    obtain ⟨hlen, ⟨t, ht, huni, htot⟩, hstep, hwait, hlast⟩ := hinv
    obtain ⟨offs, hoffs⟩ := lastStepOff_some p hlast
    rcases hg : p.arpeggio.steps.get? p.step with _ | e
    · exact absurd (List.get?_eq_none.mp hg) (by omega)
    · obtain ⟨tk, st⟩ := e
      have htk : tk = t := by simpa using huni (tk, st) (List.get?_mem hg)
      have hpt : p.playTick = some
          ({ p with last_step := LastStep.stepIndex p.step,
                    step := if p.step = p.arpeggio.steps.length - 1 then 0 else p.step + 1,
                    wait_ticks := tk - 1 }, offs ++ st.sendOn, true) := by
        unfold SPlayer.playTick
        rw [if_neg (by omega : ¬(p.arpeggio.steps.length = 0)),
          if_neg (by simp [hstop]), if_pos hw, hoffs]
        show (if p.should_stop = true ∧ p.step = 0 then _ else _) = _
        rw [if_neg (by simp [hstop]), hg]
        show (if tk = 0 then none else _) = _
        rw [if_neg (by omega)]
      have hmem : (tk, st) ∈ p.arpeggio.steps := List.get?_mem hg
      have hon : (offs ++ st.sendOn).any Msg.isOn = true := by
        rw [List.any_append, sendOn_has_on st (hnotes (tk, st) hmem)]
        simp
      unfold firstOn
      rw [hpt]
      simp [hon]
  | succ w ih =>
    intro p hinv hstop hnotes hw
    obtain ⟨hlen, ⟨t, ht, huni, htot⟩, hstep, hwait, hlast⟩ := hinv
    have hpt : p.playTick = some ({ p with wait_ticks := p.wait_ticks - 1 }, [], true) := by
      unfold SPlayer.playTick
      rw [if_neg (by omega : ¬(p.arpeggio.steps.length = 0)),
        if_neg (by simp [hstop]), if_neg (by omega)]
    have hinvw : SInv { p with wait_ticks := p.wait_ticks - 1 } := by
      refine ⟨hlen, ⟨t, ht, huni, htot⟩, hstep, ?_, hlast⟩
      show p.wait_ticks - 1 < _
      have htb : SPlayer.ticksBefore { p with wait_ticks := p.wait_ticks - 1 } =
          p.ticksBefore := rfl
      rw [htb]
      omega
    have hrec := ih { p with wait_ticks := p.wait_ticks - 1 } hinvw hstop hnotes
      (by show p.wait_ticks - 1 = w; omega)
    show firstOn (w + 1 + 1) p = some (w + 1 + 1)
    unfold firstOn
    rw [hpt]
    simp only [List.any_nil, Bool.false_eq_true, if_false]
    rw [hrec]
    rfl

/-- C9. For every synced player state reachable from `Player::init` by
`play_tick` and `change_arpeggio` calls over `from_steps` arpeggios, the
wait counter is at most the tick total attributed to the steps before the
current step index (the whole cycle when the index is 0) — hence the
subtraction `ticks_since_start -= wait_ticks` in `change_arpeggio` never
underflows. -/
theorem reach_wait_le_ticks_before (p : SPlayer) (h : Reach p) :
    p.wait_ticks ≤ p.ticksBefore :=
  le_of_lt (reach_inv p h).2.2.2.1

/-- A one-step synced arpeggio as `from_steps` builds it, for the C9
witness. -/
def arpDemo : SArp where
  steps := [(24, Step.ofNotes [⟨1, 60, 100⟩])]
  total_ticks := 24
  finish_steps := false

/-- C9 witness: the freshly initialised player over the one-step
arpeggio. -/
theorem reach_wait_le_ticks_before_witness :
    (SPlayer.init arpDemo).wait_ticks ≤ (SPlayer.init arpDemo).ticksBefore :=
  reach_wait_le_ticks_before (SPlayer.init arpDemo)
    (Reach.init [Step.ofNotes [⟨1, 60, 100⟩]] false arpDemo (by decide))

/-! ## C1: phase preservation across change_arpeggio -/

/-- The concrete one-note step of the phase counterexample. -/
def cxStep : Step := Step.ofNotes [⟨1, 60, 100⟩]

/-- The old arpeggio of the phase counterexample: 4 steps of 6 ticks, as
`from_steps` builds it from four one-note steps. -/
def cxArp4 : SArp where
  steps := [(6, cxStep), (6, cxStep), (6, cxStep), (6, cxStep)]
  total_ticks := 24
  finish_steps := false

/-- The new arpeggio of the phase counterexample: 3 steps of 8 ticks. -/
def cxArp3 : SArp where
  steps := [(8, cxStep), (8, cxStep), (8, cxStep)]
  total_ticks := 24
  finish_steps := false

/-- The player one play_tick after init on the 4-step arpeggio. -/
def cxP1 : SPlayer where
  arpeggio := cxArp4
  step := 1
  last_step := LastStep.stepIndex 0
  wait_ticks := 5
  should_stop := false

/-- C1 counterexample: reach `cxP1` by one play_tick from init (its next
step-on would fire on tick 6), swap in the 3-step arpeggio of the same
24-tick total; after the swap the next step-on fires on tick 8, and
8 ≢ 6 modulo the new arpeggio's 24 total ticks — the next step-on tick is
NOT preserved. -/
theorem change_arpeggio_phase_cex :
    SArp.fromSteps [cxStep, cxStep, cxStep, cxStep] false = some cxArp4 ∧
    SArp.fromSteps [cxStep, cxStep, cxStep] false = some cxArp3 ∧
    (SPlayer.init cxArp4).playTick = some (cxP1, [Msg.noteOn 1 60 100], true) ∧
    firstOn 30 cxP1 = some 6 ∧
    (cxP1.changeArpeggio cxArp3).bind (firstOn 30) = some 8 ∧
    cxArp3.total_ticks = 24 ∧
    ¬(8 % 24 = 6 % 24) := by
  refine ⟨by decide, by decide, by decide, by decide, by decide, by decide, by decide⟩

/-- C1 amended. For a play_tick-reachable live player and a replacement
`from_steps` arpeggio (with nonempty steps' note lists so a step-on is
audible), `change_arpeggio` succeeds and preserves the tick offset within
the cycle rather than the old next-fire tick: the new wait counter is
below the new ticks-per-step, the preserved offset plus the new wait is
an exact multiple of the new ticks-per-step (the next step-on lands on
the first new step boundary at or after the carried-over offset), and
that step-on indeed fires exactly wait+1 ticks after the swap. -/
theorem change_arpeggio_phase (p : SPlayer) (steps2 : List Step) (finish2 : Bool)
    (arp2 : SArp) (hp : ReachT p) (h2 : SArp.fromSteps steps2 finish2 = some arp2)
    (hstop : p.should_stop = false)
    (hnotes : ∀ e ∈ arp2.steps, e.2.notes ≠ []) :
    ∃ p2, p.changeArpeggio arp2 = some p2 ∧
      p2.wait_ticks < arp2.tps ∧
      (p.ticksSinceStart + p2.wait_ticks) % arp2.tps = 0 ∧
      firstOn (p2.wait_ticks + 1) p2 = some (p2.wait_ticks + 1) := by
  have hinv := reach_inv p (reachT_reach p hp)
  obtain ⟨hlen2, t2, ht2, huni2, htot2⟩ := fromSteps_uniform steps2 finish2 arp2 h2
  have htps : arp2.tps = t2 := tps_of_uniform arp2 t2 hlen2 huni2
  obtain ⟨p2, hc, harp, hwaitEq, hstopEq, hinv2⟩ :=
    changeArpeggio_spec p arp2 t2 hinv hlen2 ht2 huni2 htot2
  have hT1 : 1 ≤ p.ticksSinceStart := by
    unfold SPlayer.ticksSinceStart
    have := hinv.2.2.2.1
    omega
  have hmlt : (p.ticksSinceStart - 1) % t2 < t2 := Nat.mod_lt _ (by omega)
  refine ⟨p2, hc, ?_, ?_, ?_⟩
  · rw [htps, hwaitEq]
    omega
  · rw [htps]
    have hdm := Nat.div_add_mod (p.ticksSinceStart - 1) t2
    have hx : p.ticksSinceStart + p2.wait_ticks =
        t2 * ((p.ticksSinceStart - 1) / t2 + 1) := by
      rw [hwaitEq]
      have hexp : t2 * ((p.ticksSinceStart - 1) / t2 + 1) =
          t2 * ((p.ticksSinceStart - 1) / t2) + t2 := by ring
      omega
    rw [hx, Nat.mul_mod_right]
  · exact firstOn_of_inv p2.wait_ticks p2 hinv2
      (by rw [hstopEq, hstop]) (by rw [harp]; exact hnotes) rfl

/-- C1 amended witness: the counterexample state and swap, through the
amended theorem — new wait 7 is below the new 8 ticks-per-step, the
carried offset 1 plus 7 is the multiple 8, and the step-on fires on the
8th tick after the swap. -/
theorem change_arpeggio_phase_witness :
    ∃ p2, cxP1.changeArpeggio cxArp3 = some p2 ∧
      p2.wait_ticks < cxArp3.tps ∧
      (cxP1.ticksSinceStart + p2.wait_ticks) % cxArp3.tps = 0 ∧
      firstOn (p2.wait_ticks + 1) p2 = some (p2.wait_ticks + 1) :=
  change_arpeggio_phase cxP1 [cxStep, cxStep, cxStep] false cxArp3
    (ReachT.tick (SPlayer.init cxArp4) cxP1 [Msg.noteOn 1 60 100] true
      (ReachT.init [cxStep, cxStep, cxStep, cxStep] false cxArp4 (by decide))
      (by decide))
    (by decide) (by decide) (by decide)

/-! ## C8: MutatingHold release semantics -/

theorem releaseNote_held (s : MHState) (n : Nat) :
    (s.releaseNote n).held_notes = s.held_notes.filter (fun d => d.n ≠ n) ∧
    (s.releaseNote n).changed =
      (s.changed || (s.held_notes.filter (fun d => d.n ≠ n)).isEmpty) ∧
    (s.releaseNote n).arpeggio = s.arpeggio ∧
    (s.releaseNote n).pedal = s.pedal ∧
    (s.releaseNote n).pedal_notes_off = s.pedal_notes_off :=
  ⟨rfl, rfl, rfl, rfl, rfl⟩

theorem releaseAll_spec :
    ∀ (l : List Nat) (s : MHState),
      (MHState.releaseAll s l).held_notes = s.held_notes.filter (fun d => d.n ∉ l) ∧
      ((MHState.releaseAll s l).held_notes.isEmpty = false →
        (MHState.releaseAll s l).changed = s.changed) ∧
      (MHState.releaseAll s l).arpeggio = s.arpeggio := by
  intro l
  induction l with
  | nil =>
    intro s
    refine ⟨?_, fun _ => rfl, rfl⟩
    simp [MHState.releaseAll]
  | cons n rest ih =>
    intro s
    obtain ⟨h1, h2, h3⟩ := ih (s.releaseNote n)
    have hheld : (s.releaseNote n).held_notes = s.held_notes.filter (fun d => d.n ≠ n) := rfl
    have hfil : (MHState.releaseAll s (n :: rest)).held_notes =
        s.held_notes.filter (fun d => d.n ∉ n :: rest) := by
      show (MHState.releaseAll (s.releaseNote n) rest).held_notes = _
      rw [h1, hheld, List.filter_filter]
      apply List.filter_congr
      intro d _
      simp only [List.mem_cons, decide_not]
      by_cases hdn : d.n = n
      · simp [hdn]
      · simp [hdn]
    refine ⟨hfil, ?_, h3⟩
    intro hne
    have hne2 : ((s.releaseNote n).releaseAll rest).held_notes.isEmpty = false := hne
    have hch := h2 hne2
    have hsup : (s.held_notes.filter (fun d => d.n ≠ n)).isEmpty = false := by
      rw [hfil] at hne
      rcases List.isEmpty_eq_false_iff_exists_mem.mp hne with ⟨d, hd⟩
      rw [List.mem_filter] at hd
      apply List.isEmpty_eq_false_iff_exists_mem.mpr
      refine ⟨d, ?_⟩
      rw [List.mem_filter]
      refine ⟨hd.1, ?_⟩
      have hd2 := hd.2
      simp only [decide_eq_true_eq, List.mem_cons, not_or] at hd2
      simp only [decide_eq_true_eq]
      exact fun hdn => hd2.1 hdn
    show ((s.releaseNote n).releaseAll rest).changed = s.changed
    rw [hch]
    show (s.changed || (s.held_notes.filter (fun d => d.n ≠ n)).isEmpty) = s.changed
    rw [hsup]
    simp

/-- C8. A pedal-up note-off routes through `release_note`, which removes
every occurrence of the pitch and sets `changed` only when the held
vector has become empty (likewise a pedal release for every deferred-off
pitch); consequently a tick with `changed` clear only advances the
existing player — no rebuild and no new player — and when the final note
has been released, the next tick asks the player to stop (graceful
`stop`) before advancing it. -/
theorem mutating_hold_release (st : Settings) (s : MHState) (n c v : Nat) :
    (s.pedal = false →
      mhProcess st s (Msg.noteOff c n v) = some (s.releaseNote n, [])) ∧
    (s.pedal = true → v < 64 →
      mhProcess st s (Msg.controlChange c 64 v) =
        some (MHState.releaseAll { s with pedal := false, pedal_notes_off := [] }
          s.pedal_notes_off, [])) ∧
    ((s.releaseNote n).held_notes = s.held_notes.filter (fun d => d.n ≠ n)) ∧
    ((s.releaseNote n).held_notes.isEmpty = false →
      (s.releaseNote n).changed = s.changed) ∧
    ((s.releaseNote n).held_notes.isEmpty = true → (s.releaseNote n).changed = true) ∧
    ((s.releaseNote n).arpeggio = s.arpeggio) ∧
    (∀ l : List Nat,
      (MHState.releaseAll s l).held_notes = s.held_notes.filter (fun d => d.n ∉ l) ∧
      ((MHState.releaseAll s l).held_notes.isEmpty = false →
        (MHState.releaseAll s l).changed = s.changed) ∧
      (MHState.releaseAll s l).arpeggio = s.arpeggio) ∧
    (s.changed = false →
      mhTick st s =
        match s.arpeggio with
        | none => some (s, [])
        | some pl => (pl.playTick).map (fun r =>
            ({ s with arpeggio := if r.2.2 then some r.1 else none }, r.2.1))) ∧
    (∀ pl, s.changed = true → s.held_notes = [] → s.arpeggio = some pl →
      pl.should_stop = false →
      mhTick st s = (SPlayer.playTick { pl with should_stop := true }).map (fun r =>
        ({ s with changed := false,
                  arpeggio := if r.2.2 then some r.1 else none }, r.2.1))) := by
  refine ⟨?_, ?_, ?_, ?_, ?_, ?_, ?_, ?_, ?_⟩
  · intro hp
    simp [mhProcess, hp]
  · intro hp hv
    have h64 : (64 ≤ v) = False := by simp; omega
    simp [mhProcess, DAMPER_PEDAL, hp, h64]
  · exact (releaseNote_held s n).1
  · intro hne
    show (s.changed || (s.held_notes.filter (fun d => d.n ≠ n)).isEmpty) = s.changed
    have hf : (s.held_notes.filter (fun d => d.n ≠ n)).isEmpty = false := hne
    rw [hf]
    simp
  · intro hemp
    show (s.changed || (s.held_notes.filter (fun d => d.n ≠ n)).isEmpty) = true
    have hf : (s.held_notes.filter (fun d => d.n ≠ n)).isEmpty = true := hemp
    rw [hf]
    simp
  · exact (releaseNote_held s n).2.2.1
  · intro l
    exact releaseAll_spec l s
  · intro hch
    have hgate : mhRebuildGate s = false := by
      simp [mhRebuildGate, hch]
    cases harp : s.arpeggio with
    | none =>
      simp [mhTick, hgate, harp]
    | some pl =>
      simp [mhTick, hgate, harp]
  · intro pl hch hheld harp hstop
    have hgate : mhRebuildGate s = true := by
      simp [mhRebuildGate, hch, harp, hstop]
    simp [mhTick, hgate, hheld, harp]

/-- A concrete MutatingHold state holding two notes over a running
player, used to witness the release-semantics theorem. -/
def mhDemo : MHState where
  held_notes := [⟨1, 60, 100⟩, ⟨1, 64, 90⟩]
  changed := false
  arpeggio := some fsDemo
  pedal := false
  pedal_notes_off := []

/-- C8 witness: releasing pitch 64 with pitch 60 still held leaves the
changed flag clear, and the next tick merely advances the player. -/
theorem mutating_hold_release_witness :
    mhDemo.pedal = false ∧
    (mhDemo.releaseNote 64).held_notes.isEmpty = false ∧
    mhProcess { finish_pattern := false, fixed_velocity := none } mhDemo (Msg.noteOff 1 64 0) =
      some (mhDemo.releaseNote 64, []) ∧
    (mhDemo.releaseNote 64).changed = mhDemo.changed ∧
    mhTick { finish_pattern := false, fixed_velocity := none } mhDemo =
      (fsDemo.playTick).map (fun r =>
        ({ mhDemo with arpeggio := if r.2.2 then some r.1 else none }, r.2.1)) := by
  have h := mutating_hold_release { finish_pattern := false, fixed_velocity := none }
    mhDemo 64 1 0
  refine ⟨rfl, by decide, h.1 rfl, h.2.2.2.1 (by decide), ?_⟩
  exact h.2.2.2.2.2.2.2.1 rfl

end MidiArp
